import Mathlib

/-!
Verification of the interface-complexity checker and the data-format
converter of this repository.

The Python sources are shallowly embedded over `List Char`: each regular
expression used by the checker is translated into an explicit scanner with
the same matching semantics on the inputs considered (ASCII text; the
character classes model the `\s` and `\w` regex classes), and the printed
report is modelled as the list of emitted lines.
-/

namespace LinusCheck

/-- Whitespace class: models the regex class `\s` and Python `str.strip`
(ASCII range). -/
def isSpace (c : Char) : Bool :=
  c = ' ' || c = '\t' || c = '\n' || c = '\r' || c = '\x0b' || c = '\x0c'

/-- Word-character class: models the regex class `\w` (ASCII range). -/
def isWordChar (c : Char) : Bool :=
  ('a' ≤ c && c ≤ 'z') || ('A' ≤ c && c ≤ 'Z') || ('0' ≤ c && c ≤ '9') || c = '_'

/-- Negated single-character class, models `[^x]` for one character `x`. -/
def notChar (x : Char) (c : Char) : Bool := !(c = x)

/-- Match a literal character sequence at the front of the input and
return the remainder; models a literal fragment of a regex. -/
def dropLiteral : List Char → List Char → Option (List Char)
  | [], s => some s
  | _ :: _, [] => none
  | l :: ls, c :: cs => if c = l then dropLiteral ls cs else none

theorem dropLiteral_append (l s : List Char) : dropLiteral l (l ++ s) = some s := by
  induction l with
  | nil => rfl
  | cons a as ih => simp [dropLiteral, ih]

theorem dropLiteral_length {l : List Char} :
    ∀ {s r : List Char}, dropLiteral l s = some r → r.length + l.length = s.length := by
  induction l with
  | nil =>
    intro s r h
    simp [dropLiteral] at h
    simp [h]
  | cons a as ih =>
    intro s r h
    cases s with
    | nil => simp [dropLiteral] at h
    | cons c cs =>
      by_cases hc : c = a
      · simp [dropLiteral, hc] at h
        have := ih h
        simp [List.length_cons]
        omega
      · simp [dropLiteral, hc] at h

/-- A word character is never a whitespace character. -/
theorem word_not_space {c : Char} (h : isWordChar c = true) : isSpace c = false := by
  by_contra hs
  have hs' : isSpace c = true := by
    cases h' : isSpace c
    · exact absurd h' hs
    · rfl
  unfold isSpace at hs'
  simp only [Bool.or_eq_true, decide_eq_true_eq] at hs'
  rcases hs' with ((((h1 | h1) | h1) | h1) | h1) | h1 <;> subst h1 <;> simp [isWordChar] at h

/-- Whitespace is never a comma. -/
theorem space_ne_comma {c : Char} (h : isSpace c = true) : c ≠ ',' := by
  intro he
  subst he
  simp [isSpace] at h

/-- Split a character list at every occurrence of `sep`; models Python
`str.split(sep)` (so the empty input yields one empty segment). -/
def splitOnChar (sep : Char) : List Char → List (List Char)
  | [] => [[]]
  | c :: cs =>
    if c = sep then [] :: splitOnChar sep cs
    else
      match splitOnChar sep cs with
      | [] => [[c]]
      | s :: ss => (c :: s) :: ss

theorem splitOnChar_ne_nil (sep : Char) (s : List Char) : splitOnChar sep s ≠ [] := by
  cases s with
  | nil => simp [splitOnChar]
  | cons c cs =>
    by_cases h : c = sep
    · simp [splitOnChar, h]
    · simp only [splitOnChar, h, if_false]
      cases splitOnChar sep cs <;> simp

/-- Remove leading and trailing whitespace; models Python `str.strip()`. -/
def stripChars (s : List Char) : List Char :=
  ((s.dropWhile isSpace).reverse.dropWhile isSpace).reverse

/-- True when the list has at least one non-whitespace character. -/
def hasInk (s : List Char) : Bool := s.any (fun c => !(isSpace c))

theorem dropWhile_eq_nil_iff {p : Char → Bool} {s : List Char} :
    s.dropWhile p = [] ↔ ∀ c ∈ s, p c = true := by
  induction s with
  | nil => simp
  | cons c cs ih =>
    by_cases h : p c
    · simp [List.dropWhile_cons, h, ih]
    · simp [List.dropWhile_cons, h]

theorem stripChars_eq_nil_iff {s : List Char} :
    stripChars s = [] ↔ ∀ c ∈ s, isSpace c = true := by
  unfold stripChars
  rw [List.reverse_eq_nil_iff, dropWhile_eq_nil_iff]
  constructor
  · intro h c hc
    by_cases hsp : isSpace c = true
    · exact hsp
    · exfalso
      have hc' : c ∈ s.dropWhile isSpace := by
        have hsplit := List.takeWhile_append_dropWhile isSpace s
        rw [← hsplit] at hc
        rcases List.mem_append.mp hc with h1 | h1
        · exact absurd (List.mem_takeWhile_imp h1) hsp
        · exact h1
      have := h c (List.mem_reverse.mpr hc')
      exact hsp this
  · intro h c hc
    exact h c (List.Sublist.mem (List.mem_reverse.mp hc) (List.dropWhile_sublist _))

theorem hasInk_iff_strip_ne_nil {s : List Char} :
    hasInk s = true ↔ stripChars s ≠ [] := by
  rw [hasInk, List.any_eq_true]
  constructor
  · rintro ⟨c, hc, hns⟩ hnil
    have := stripChars_eq_nil_iff.mp hnil c hc
    rw [this] at hns
    simp at hns
  · intro h
    by_contra habs
    push_neg at habs
    apply h
    rw [stripChars_eq_nil_iff]
    intro c hc
    have := habs c hc
    cases hsp : isSpace c
    · rw [hsp] at this
      simp at this
    · rfl

/-- The parameter count computed by the checker for one captured
parameter-list text: strip the text, then count the comma-separated
segments that remain non-empty after stripping
(`len([p for p in params_str.split(',') if p.strip()])`). -/
def paramCount (ps : List Char) : Nat :=
  let t := stripChars ps
  if t.isEmpty then 0
  else ((splitOnChar ',' t).filter (fun p => !((stripChars p).isEmpty))).length

/-- Specification-side count: the number of comma-separated segments of
the captured text itself that are non-empty after trimming whitespace. -/
def nonBlankSegmentCount (ps : List Char) : Nat :=
  ((splitOnChar ',' ps).filter (fun p => !((stripChars p).isEmpty))).length

theorem inkP_eq_hasInk : (fun p : List Char => !((stripChars p).isEmpty)) = hasInk := by
  funext p
  cases h : hasInk p
  · have hnil : stripChars p = [] := by
      by_contra habs
      have := hasInk_iff_strip_ne_nil.mpr habs
      rw [h] at this
      exact Bool.false_ne_true this
    simp [hnil]
  · have := hasInk_iff_strip_ne_nil.mp h
    simp [List.isEmpty_iff, this]

theorem hasInk_cons_space {c : Char} {s : List Char} (h : isSpace c = true) :
    hasInk (c :: s) = hasInk s := by
  simp [hasInk, h]

theorem hasInk_append_space {s sp : List Char} (h : ∀ c ∈ sp, isSpace c = true) :
    hasInk (s ++ sp) = hasInk s := by
  have hsp : hasInk sp = false := by
    rw [hasInk]
    rw [List.any_eq_false]
    intro c hc
    simp [h c hc]
  rw [hasInk, List.any_append, ← hasInk, ← hasInk, hsp, Bool.or_false]

/-- Splitting a comma-free text yields a single segment. -/
theorem splitOnChar_no_sep {s : List Char} (h : ∀ c ∈ s, c ≠ ',') :
    splitOnChar ',' s = [s] := by
  induction s with
  | nil => rfl
  | cons c cs ih =>
    have hc : c ≠ ',' := h c (List.mem_cons_self c cs)
    have := ih (fun x hx => h x (List.mem_cons_of_mem c hx))
    simp [splitOnChar, hc, this]

/-- Leading whitespace does not change the number of non-blank segments. -/
theorem nonBlank_drop_leading :
    ∀ (pre s : List Char), (∀ c ∈ pre, isSpace c = true) →
      ((splitOnChar ',' (pre ++ s)).filter hasInk).length =
        ((splitOnChar ',' s).filter hasInk).length := by
  intro pre
  induction pre with
  | nil => intro s _; rfl
  | cons c pre' ih =>
    intro s h
    have hc : isSpace c = true := h c (List.mem_cons_self c pre')
    have hcomma : c ≠ ',' := space_ne_comma hc
    have ihs := ih s (fun x hx => h x (List.mem_cons_of_mem c hx))
    rcases hsp : splitOnChar ',' (pre' ++ s) with _ | ⟨hd, tl⟩
    · exact absurd hsp (splitOnChar_ne_nil ',' (pre' ++ s))
    · have heq : splitOnChar ',' (c :: (pre' ++ s)) = (c :: hd) :: tl := by
        simp [splitOnChar, hcomma, hsp]
      rw [List.cons_append, heq]
      rw [hsp] at ihs
      simp only [List.filter_cons, hasInk_cons_space hc] at ihs ⊢
      cases hh : hasInk hd <;> simp [hh] at ihs ⊢ <;> omega

/-- Modify the last element of a list of segments. -/
def modLast (f : List Char → List Char) : List (List Char) → List (List Char)
  | [] => []
  | [x] => [f x]
  | x :: y :: ys => x :: modLast f (y :: ys)

/-- Appending comma-free text extends only the last segment. -/
theorem splitOnChar_append_no_sep :
    ∀ (s sp : List Char), (∀ c ∈ sp, c ≠ ',') →
      splitOnChar ',' (s ++ sp) = modLast (fun h => h ++ sp) (splitOnChar ',' s) := by
  intro s
  induction s with
  | nil =>
    intro sp h
    simp [splitOnChar_no_sep h, splitOnChar, modLast]
  | cons c s' ih =>
    intro sp h
    have ihsp := ih sp h
    by_cases hc : c = ','
    · subst hc
      rcases hsp : splitOnChar ',' s' with _ | ⟨hd, tl⟩
      · exact absurd hsp (splitOnChar_ne_nil ',' s')
      · have lhs : splitOnChar ',' (',' :: (s' ++ sp)) = [] :: splitOnChar ',' (s' ++ sp) := by
          simp [splitOnChar]
        rw [List.cons_append, lhs, ihsp, hsp]
        simp [splitOnChar, hsp, modLast]
    · rcases hsp : splitOnChar ',' s' with _ | ⟨hd, tl⟩
      · exact absurd hsp (splitOnChar_ne_nil ',' s')
      · have rhseq : splitOnChar ',' (c :: s') = (c :: hd) :: tl := by
          simp [splitOnChar, hc, hsp]
        rw [hsp] at ihsp
        cases tl with
        | nil =>
          have lhs : splitOnChar ',' (c :: (s' ++ sp)) = [c :: (hd ++ sp)] := by
            have hmid : splitOnChar ',' (s' ++ sp) = [hd ++ sp] := by
              rw [ihsp]; rfl
            simp [splitOnChar, hc, hmid]
          rw [List.cons_append, lhs, rhseq]
          rfl
        | cons y ys =>
          have lhs : splitOnChar ',' (c :: (s' ++ sp)) =
              (c :: hd) :: modLast (fun x => x ++ sp) (y :: ys) := by
            have hmid : splitOnChar ',' (s' ++ sp) = hd :: modLast (fun x => x ++ sp) (y :: ys) := by
              rw [ihsp]; rfl
            simp [splitOnChar, hc, hmid]
          rw [List.cons_append, lhs, rhseq]
          rfl

/-- Counting through a last-segment modification that preserves inkiness. -/
theorem filter_hasInk_modLast {f : List Char → List Char}
    (hf : ∀ x, hasInk (f x) = hasInk x) :
    ∀ L : List (List Char), ((modLast f L).filter hasInk).length = (L.filter hasInk).length := by
  intro L
  induction L with
  | nil => rfl
  | cons x ys ih =>
    cases ys with
    | nil =>
      simp [modLast, List.filter_cons, hf x]
      cases hasInk x <;> simp
    | cons y ys' =>
      have : modLast f (x :: y :: ys') = x :: modLast f (y :: ys') := rfl
      rw [this]
      simp only [List.filter_cons] at ih ⊢
      cases hasInk x <;> simpa using ih

/-- Main parameter-count lemma: the checker's stripped computation agrees
with counting non-blank comma segments of the raw captured text. -/
theorem nonBlank_decompose (ps : List Char) :
    ((splitOnChar ',' ps).filter hasInk).length =
      ((splitOnChar ',' (stripChars ps)).filter hasInk).length := by
  have hps : ps.takeWhile isSpace ++ ps.dropWhile isSpace = ps :=
    List.takeWhile_append_dropWhile isSpace ps
  have htw : ∀ c ∈ ps.takeWhile isSpace, isSpace c = true := fun c hc => List.mem_takeWhile_imp hc
  have step1 : ((splitOnChar ',' ps).filter hasInk).length =
      ((splitOnChar ',' (ps.dropWhile isSpace)).filter hasInk).length := by
    conv_lhs => rw [← hps]
    exact nonBlank_drop_leading (ps.takeWhile isSpace) (ps.dropWhile isSpace) htw
  have hadecomp : ps.dropWhile isSpace =
      stripChars ps ++ ((ps.dropWhile isSpace).reverse.takeWhile isSpace).reverse := by
    conv_lhs =>
      rw [← List.reverse_reverse (ps.dropWhile isSpace),
        ← List.takeWhile_append_dropWhile isSpace (ps.dropWhile isSpace).reverse]
    rw [List.reverse_append]
    rfl
  have hsp2 : ∀ c ∈ ((ps.dropWhile isSpace).reverse.takeWhile isSpace).reverse, isSpace c = true := by
    intro c hc
    exact List.mem_takeWhile_imp (List.mem_reverse.mp hc)
  have step2 : ((splitOnChar ',' (ps.dropWhile isSpace)).filter hasInk).length =
      ((splitOnChar ',' (stripChars ps)).filter hasInk).length := by
    conv_lhs => rw [hadecomp]
    rw [splitOnChar_append_no_sep _ _ (fun c hc => space_ne_comma (hsp2 c hc))]
    exact filter_hasInk_modLast (fun x => hasInk_append_space hsp2) _
  rw [step1, step2]

theorem paramCount_eq_nonBlank (ps : List Char) : paramCount ps = nonBlankSegmentCount ps := by
  rw [paramCount, nonBlankSegmentCount, inkP_eq_hasInk]
  by_cases ht : (stripChars ps).isEmpty = true
  · rw [if_pos ht]
    have hall : ∀ c ∈ ps, isSpace c = true :=
      stripChars_eq_nil_iff.mp (List.isEmpty_iff.mp ht)
    rw [splitOnChar_no_sep (fun c hc => space_ne_comma (hall c hc))]
    have hink : hasInk ps = false := by
      rw [hasInk, List.any_eq_false]
      intro c hc
      simp [hall c hc]
    simp [List.filter_cons, hink]
  · rw [if_neg ht]
    exact (nonBlank_decompose ps).symm

/-- One match attempt of `protocol\s+(\w+)[^{]*\{([^}]*)\}` at the start of
the input.  On success it returns the two captured groups (protocol name and
raw body) plus the remainder of the input after the closing brace. -/
def tryMatchProtocol (s : List Char) : Option ((List Char × List Char) × List Char) :=
  match dropLiteral (("protocol").data) s with
  | none => none
  | some r1 =>
    if (r1.takeWhile isSpace).isEmpty then none
    else if ((r1.dropWhile isSpace).takeWhile isWordChar).isEmpty then none
    else
      match (((r1.dropWhile isSpace).dropWhile isWordChar).dropWhile (notChar '{')) with
      | [] => none
      | _ :: r5 =>
        match r5.dropWhile (notChar '}') with
        | [] => none
        | _ :: rest =>
          some (((r1.dropWhile isSpace).takeWhile isWordChar, r5.takeWhile (notChar '}')), rest)

/-- One match attempt of `func\s+(\w+)\s*\([^)]*\)` at the start of the
input, returning the captured method name and the captured raw
parameter-list text plus the remainder after the closing parenthesis. -/
def tryMatchFunc (s : List Char) : Option ((List Char × List Char) × List Char) :=
  match dropLiteral (("func").data) s with
  | none => none
  | some r1 =>
    if (r1.takeWhile isSpace).isEmpty then none
    else if ((r1.dropWhile isSpace).takeWhile isWordChar).isEmpty then none
    else
      match (((r1.dropWhile isSpace).dropWhile isWordChar).dropWhile isSpace) with
      | [] => none
      | c4 :: r5 =>
        if c4 = '(' then
          match r5.dropWhile (notChar ')') with
          | [] => none
          | _ :: rest =>
            some (((r1.dropWhile isSpace).takeWhile isWordChar, r5.takeWhile (notChar ')')), rest)
        else none

/-- One match attempt of `func\s+(\w+)` at the start of the input,
returning the captured name and the remainder after it. -/
def tryMatchFuncName (s : List Char) : Option (List Char × List Char) :=
  match dropLiteral (("func").data) s with
  | none => none
  | some r1 =>
    if (r1.takeWhile isSpace).isEmpty then none
    else if ((r1.dropWhile isSpace).takeWhile isWordChar).isEmpty then none
    else some ((r1.dropWhile isSpace).takeWhile isWordChar, (r1.dropWhile isSpace).dropWhile isWordChar)

/-- Generic left-to-right scan used by `re.findall`: attempt a match at
every position, and after a successful match continue after its end.
`fuel` bounds the recursion; the wrappers pass the input length, which
always suffices because a successful step consumes at least one
character. -/
def scanAll {α : Type} (step : List Char → Option (α × List Char)) : Nat → List Char → List α
  | 0, _ => []
  | _ + 1, [] => []
  | fuel + 1, c :: cs =>
    match step (c :: cs) with
    | some (a, rest) => a :: scanAll step fuel rest
    | none => scanAll step fuel cs

theorem scanAll_adequate {α : Type} {step : List Char → Option (α × List Char)}
    (hstep : ∀ s a rest, step s = some (a, rest) → rest.length < s.length) :
    ∀ (fuel : Nat) (s : List Char), s.length ≤ fuel →
      scanAll step fuel s = scanAll step s.length s := by
  intro fuel
  induction fuel using Nat.strong_induction_on with
  | _ fuel ih =>
    intro s hs
    match fuel, s with
    | 0, s =>
      have : s = [] := List.eq_nil_of_length_eq_zero (Nat.le_zero.mp hs)
      subst this
      rfl
    | fuel + 1, [] =>
      cases h : ([] : List Char).length <;> rfl
    | fuel + 1, c :: cs =>
      have hfuel : cs.length ≤ fuel := by
        have := hs
        simp [List.length_cons] at this
        omega
      show scanAll step (fuel + 1) (c :: cs) = scanAll step (cs.length + 1) (c :: cs)
      cases hm : step (c :: cs) with
      | none =>
        simp only [scanAll, hm]
        rw [ih fuel (by omega) cs hfuel, ih cs.length (by omega) cs (Nat.le_refl _)]
      | some ar =>
        rcases ar with ⟨a, rest⟩
        have hlt : rest.length < cs.length + 1 := by
          have := hstep (c :: cs) a rest hm
          simpa using this
        simp only [scanAll, hm]
        rw [ih fuel (by omega) rest (by omega), ih cs.length (by omega) rest (by omega)]

theorem dropWhile_length_le (p : Char → Bool) : ∀ l : List Char, (l.dropWhile p).length ≤ l.length := by
  intro l
  induction l with
  | nil => simp
  | cons c cs ih =>
    rw [List.dropWhile_cons]
    split
    · exact Nat.le_trans ih (by simp)
    · exact Nat.le_refl _

theorem tryMatchProtocol_length :
    ∀ (s : List Char) (pr : List Char × List Char) (rest : List Char),
      tryMatchProtocol s = some (pr, rest) → rest.length < s.length := by
  intro s pr rest h
  unfold tryMatchProtocol at h
  cases hd : dropLiteral (("protocol").data) s with
  | none => rw [hd] at h; exact absurd h (by simp)
  | some r1 =>
    simp only [hd] at h
    have l1 : r1.length + 8 = s.length := by
      have := dropLiteral_length hd
      simpa using this
    by_cases h1 : (r1.takeWhile isSpace).isEmpty = true
    · rw [if_pos h1] at h; exact absurd h (by simp)
    · rw [if_neg h1] at h
      by_cases h2 : ((r1.dropWhile isSpace).takeWhile isWordChar).isEmpty = true
      · rw [if_pos h2] at h; exact absurd h (by simp)
      · rw [if_neg h2] at h
        cases h3 : (((r1.dropWhile isSpace).dropWhile isWordChar).dropWhile (notChar '{')) with
        | nil => rw [h3] at h; exact absurd h (by simp)
        | cons x r5 =>
          simp only [h3] at h
          cases h4 : r5.dropWhile (notChar '}') with
          | nil => rw [h4] at h; exact absurd h (by simp)
          | cons y rest' =>
            simp only [h4] at h
            simp only [Option.some.injEq, Prod.mk.injEq] at h
            have hrest : rest = rest' := h.2.symm
            subst hrest
            have l2 := dropWhile_length_le isSpace r1
            have l3 := dropWhile_length_le isWordChar (r1.dropWhile isSpace)
            have l4 := dropWhile_length_le (notChar '{') ((r1.dropWhile isSpace).dropWhile isWordChar)
            have l5 : (((r1.dropWhile isSpace).dropWhile isWordChar).dropWhile (notChar '{')).length
                = r5.length + 1 := by rw [h3]; simp
            have l6 := dropWhile_length_le (notChar '}') r5
            have l7 : (r5.dropWhile (notChar '}')).length = rest.length + 1 := by rw [h4]; simp
            omega

theorem tryMatchFunc_length :
    ∀ (s : List Char) (pr : List Char × List Char) (rest : List Char),
      tryMatchFunc s = some (pr, rest) → rest.length < s.length := by
  intro s pr rest h
  unfold tryMatchFunc at h
  cases hd : dropLiteral (("func").data) s with
  | none => rw [hd] at h; exact absurd h (by simp)
  | some r1 =>
    simp only [hd] at h
    have l1 : r1.length + 4 = s.length := by
      have := dropLiteral_length hd
      simpa using this
    by_cases h1 : (r1.takeWhile isSpace).isEmpty = true
    · rw [if_pos h1] at h; exact absurd h (by simp)
    · rw [if_neg h1] at h
      by_cases h2 : ((r1.dropWhile isSpace).takeWhile isWordChar).isEmpty = true
      · rw [if_pos h2] at h; exact absurd h (by simp)
      · rw [if_neg h2] at h
        cases h3 : (((r1.dropWhile isSpace).dropWhile isWordChar).dropWhile isSpace) with
        | nil => rw [h3] at h; exact absurd h (by simp)
        | cons c4 r5 =>
          simp only [h3] at h
          by_cases hc4 : c4 = '('
          · rw [if_pos hc4] at h
            cases h4 : r5.dropWhile (notChar ')') with
            | nil => rw [h4] at h; exact absurd h (by simp)
            | cons y rest' =>
              simp only [h4] at h
              simp only [Option.some.injEq, Prod.mk.injEq] at h
              have hrest : rest = rest' := h.2.symm
              subst hrest
              have l2 := dropWhile_length_le isSpace r1
              have l3 := dropWhile_length_le isWordChar (r1.dropWhile isSpace)
              have l4 := dropWhile_length_le isSpace ((r1.dropWhile isSpace).dropWhile isWordChar)
              have l5 : (((r1.dropWhile isSpace).dropWhile isWordChar).dropWhile isSpace).length
                  = r5.length + 1 := by rw [h3]; simp
              have l6 := dropWhile_length_le (notChar ')') r5
              have l7 : (r5.dropWhile (notChar ')')).length = rest.length + 1 := by rw [h4]; simp
              omega
          · rw [if_neg hc4] at h; exact absurd h (by simp)

theorem tryMatchFuncName_length :
    ∀ (s : List Char) (nm : List Char) (rest : List Char),
      tryMatchFuncName s = some (nm, rest) → rest.length < s.length := by
  intro s nm rest h
  unfold tryMatchFuncName at h
  cases hd : dropLiteral (("func").data) s with
  | none => rw [hd] at h; exact absurd h (by simp)
  | some r1 =>
    simp only [hd] at h
    have l1 : r1.length + 4 = s.length := by
      have := dropLiteral_length hd
      simpa using this
    by_cases h1 : (r1.takeWhile isSpace).isEmpty = true
    · rw [if_pos h1] at h; exact absurd h (by simp)
    · rw [if_neg h1] at h
      by_cases h2 : ((r1.dropWhile isSpace).takeWhile isWordChar).isEmpty = true
      · rw [if_pos h2] at h; exact absurd h (by simp)
      · rw [if_neg h2] at h
        simp only [Option.some.injEq, Prod.mk.injEq] at h
        have hrest : rest = (r1.dropWhile isSpace).dropWhile isWordChar := h.2.symm
        subst hrest
        have l2 := dropWhile_length_le isSpace r1
        have l3 := dropWhile_length_le isWordChar (r1.dropWhile isSpace)
        omega

/-- All protocol blocks of a definitions file, in source order:
models `re.findall(protocol_pattern, content, re.DOTALL)`. -/
def findProtocols (s : List Char) : List (List Char × List Char) :=
  scanAll tryMatchProtocol s.length s

/-- All method declarations of a protocol body with their captured raw
parameter lists, in source order: models `re.findall` of the method
pattern together with the parameter capture. -/
def findFuncs (s : List Char) : List (List Char × List Char) :=
  scanAll tryMatchFunc s.length s

/-- All method names found by the pattern `func\s+(\w+)`, in source order. -/
def funcNamesOf (s : List Char) : List (List Char) :=
  scanAll tryMatchFuncName s.length s

theorem findProtocols_cons_some {c : Char} {cs : List Char}
    {pr : List Char × List Char} {rest : List Char}
    (h : tryMatchProtocol (c :: cs) = some (pr, rest)) :
    findProtocols (c :: cs) = pr :: findProtocols rest := by
  have hlt : rest.length < cs.length + 1 := by
    have := tryMatchProtocol_length _ _ _ h
    simpa using this
  show scanAll tryMatchProtocol (cs.length + 1) (c :: cs) = pr :: scanAll tryMatchProtocol rest.length rest
  simp only [scanAll, h]
  rw [scanAll_adequate tryMatchProtocol_length cs.length rest (by omega)]

theorem findProtocols_cons_none {c : Char} {cs : List Char}
    (h : tryMatchProtocol (c :: cs) = none) :
    findProtocols (c :: cs) = findProtocols cs := by
  show scanAll tryMatchProtocol (cs.length + 1) (c :: cs) = scanAll tryMatchProtocol cs.length cs
  simp only [scanAll, h]

/-- One match attempt of `func\s+NAME\s*\(([^)]*)\)` at the start of the
input (`NAME` is the interpolated method name); on success it returns
only the captured parameter-list text, as `re.search(...).group(1)`. -/
def tryMatchNamedFunc (name : List Char) (s : List Char) : Option (List Char) :=
  match dropLiteral (("func").data) s with
  | none => none
  | some r1 =>
    if (r1.takeWhile isSpace).isEmpty then none
    else
      match dropLiteral name (r1.dropWhile isSpace) with
      | none => none
      | some r3 =>
        match r3.dropWhile isSpace with
        | [] => none
        | c4 :: r5 =>
          if c4 = '(' then
            if (r5.dropWhile (notChar ')')).isEmpty then none
            else some (r5.takeWhile (notChar ')'))
          else none

/-- Leftmost search for the named-method pattern: models
`re.search(method_def_pattern, protocol_body)` followed by `.group(1)`. -/
def searchNamedFunc (name : List Char) : List Char → Option (List Char)
  | [] => none
  | c :: cs =>
    match tryMatchNamedFunc name (c :: cs) with
    | some ps => some ps
    | none => searchNamedFunc name cs

/-- Names of the methods of a protocol body, in source order and with
duplicates kept, exactly as the checker's `methods` list. -/
def methodNamesOf (body : List Char) : List (List Char) :=
  (findFuncs body).map Prod.fst

/-- One rule verdict of the protocol check: either the operation-count
rule of one interface or the parameter-count rule of one operation. -/
inductive Verdict where
  | opCount : List Char → Nat → Verdict
  | paramCountV : List Char → Nat → Verdict
deriving DecidableEq

/-- Pass condition of a verdict, exactly as tested by the checker:
the operation count fails when it exceeds 5, the parameter count fails
when it exceeds 3. -/
def Verdict.passed : Verdict → Bool
  | .opCount _ n => if 5 < n then false else true
  | .paramCountV _ p => if 3 < p then false else true

/-- The parameter-count verdicts emitted for one protocol body: the
checker walks the extracted method names and, for each, re-searches the
body for the first declaration of that name to obtain the parameter
list (skipping the method silently if the search fails). -/
def methodVerdicts (body : List Char) : List Verdict :=
  (methodNamesOf body).filterMap (fun m =>
    (searchNamedFunc m body).map (fun ps => Verdict.paramCountV m (paramCount ps)))

/-- All verdicts emitted for one protocol, operation count first. -/
def verdictsOfProtocol (pr : List Char × List Char) : List Verdict :=
  Verdict.opCount pr.1 (methodNamesOf pr.2).length :: methodVerdicts pr.2

/-- Concatenation of a list of blocks. -/
def concatAll {α : Type} : List (List α) → List α
  | [] => []
  | l :: ls => l ++ concatAll ls

/-- Every rule verdict produced by one run of the protocol check, in
emission order. -/
def protocolVerdicts (content : List Char) : List Verdict :=
  concatAll ((findProtocols content).map verdictsOfProtocol)

/-- One iteration of the checker's protocol loop acting on the running
`all_passed` flag: `all_passed = False` is executed on each failed rule. -/
def protocolStep (a : Bool) (pr : List Char × List Char) : Bool :=
  (methodNamesOf pr.2).foldl (fun acc m =>
    match searchNamedFunc m pr.2 with
    | none => acc
    | some ps => if 3 < paramCount ps then false else acc)
    (if 5 < (methodNamesOf pr.2).length then false else a)

/-- The final value of the checker's `all_passed` flag for a protocols
file with the given content. -/
def runAllPassed (content : List Char) : Bool :=
  (findProtocols content).foldl protocolStep true

theorem mem_concatAll {α : Type} {v : α} :
    ∀ {L : List (List α)}, v ∈ concatAll L ↔ ∃ l ∈ L, v ∈ l := by
  intro L
  induction L with
  | nil => simp [concatAll]
  | cons l ls ih => simp [concatAll, List.mem_append, ih]

theorem concatAll_all {α : Type} (p : α → Bool) :
    ∀ L : List (List α), (concatAll L).all p = L.all (fun l => l.all p) := by
  intro L
  induction L with
  | nil => rfl
  | cons l ls ih => simp [concatAll, List.all_append, ih]

theorem foldl_inner_all (body : List Char) :
    ∀ (ms : List (List Char)) (a : Bool),
      ms.foldl (fun acc m =>
        match searchNamedFunc m body with
        | none => acc
        | some ps => if 3 < paramCount ps then false else acc) a
      = (a && (ms.filterMap (fun m =>
          (searchNamedFunc m body).map
            (fun ps => Verdict.paramCountV m (paramCount ps)))).all Verdict.passed) := by
  intro ms
  induction ms with
  | nil => intro a; simp
  | cons m ms ih =>
    intro a
    rw [List.foldl_cons, List.filterMap_cons]
    cases hs : searchNamedFunc m body with
    | none => simp only [hs]; rw [ih a]; rfl
    | some ps =>
      simp only [hs, Option.map_some]
      rw [ih]
      by_cases hp : 3 < paramCount ps
      · rw [if_pos hp]
        have : (Verdict.paramCountV m (paramCount ps)).passed = false := by
          simp [Verdict.passed, hp]
        simp [this]
      · rw [if_neg hp]
        have : (Verdict.paramCountV m (paramCount ps)).passed = true := by
          simp [Verdict.passed, hp]
        simp [this]

theorem protocolStep_eq (a : Bool) (pr : List Char × List Char) :
    protocolStep a pr = (a && (verdictsOfProtocol pr).all Verdict.passed) := by
  rw [protocolStep, foldl_inner_all, verdictsOfProtocol]
  rw [List.all_cons]
  by_cases hn : 5 < (methodNamesOf pr.2).length
  · rw [if_pos hn]
    have : (Verdict.opCount pr.1 (methodNamesOf pr.2).length).passed = false := by
      simp [Verdict.passed, hn]
    simp [this, methodVerdicts]
  · rw [if_neg hn]
    have : (Verdict.opCount pr.1 (methodNamesOf pr.2).length).passed = true := by
      simp [Verdict.passed, hn]
    simp [this, methodVerdicts, Bool.and_assoc]

theorem foldl_protocolStep_all :
    ∀ (prs : List (List Char × List Char)) (a : Bool),
      prs.foldl protocolStep a = (a && (concatAll (prs.map verdictsOfProtocol)).all Verdict.passed) := by
  intro prs
  induction prs with
  | nil => intro a; simp [concatAll]
  | cons pr prs ih =>
    intro a
    rw [List.foldl_cons, ih, protocolStep_eq, List.map_cons]
    show _ = (a && (concatAll (verdictsOfProtocol pr :: prs.map verdictsOfProtocol)).all Verdict.passed)
    rw [show concatAll (verdictsOfProtocol pr :: prs.map verdictsOfProtocol)
        = verdictsOfProtocol pr ++ concatAll (prs.map verdictsOfProtocol) from rfl]
    rw [List.all_append, Bool.and_assoc]

/-- The checker's `all_passed` flag equals the conjunction of all emitted
verdicts. -/
theorem runAllPassed_eq_all (content : List Char) :
    runAllPassed content = (protocolVerdicts content).all Verdict.passed := by
  rw [runAllPassed, protocolVerdicts, foldl_protocolStep_all, Bool.true_and]

/-- Does a whole-word occurrence of `w` begin at the head of `s`?  The
word must be present literally and the character following it (if any)
must not be a word character: models the trailing `\b` of `\bw\b`. -/
def wordHere (w : List Char) (s : List Char) : Bool :=
  match dropLiteral w s with
  | none => false
  | some [] => true
  | some (c :: _) => !(isWordChar c)

/-- Is the position after `prev` a word boundary?  Models the leading
`\b`: true at the start of the text or after a non-word character. -/
def boundaryOk : Option Char → Bool
  | none => true
  | some c => !(isWordChar c)

/-- Count the whole-word occurrences of `w` while scanning the text once,
carrying the previously seen character: models
`len(re.findall(r'\bw\b', content))` (for the keyword patterns used the
matches cannot overlap, so position counting and `findall` agree). -/
def countWordAux (w : List Char) : Option Char → List Char → Nat
  | _, [] => 0
  | prev, c :: cs =>
    (if boundaryOk prev && wordHere w (c :: cs) then 1 else 0) + countWordAux w (some c) cs

/-- Number of whole-word occurrences of `w` in `s`. -/
def countWord (w s : List Char) : Nat := countWordAux w none s

/-- Index-based boundary test: position `i` of `s` is preceded by the
start of the text or by a non-word character. -/
def prevOk (s : List Char) : Nat → Bool
  | 0 => true
  | i + 1 =>
    match s.get? i with
    | none => true
    | some c => !(isWordChar c)

/-- Specification-side count: the number of positions of `s` at which a
whole-word occurrence of `w` begins (word present, non-word or text
boundary on both sides). -/
def numWholeWord (w s : List Char) : Nat :=
  ((List.range s.length).filter (fun i => prevOk s i && wordHere w (s.drop i))).length

/-- Boundary test carrying an explicit previous character for position 0. -/
def prevOkFrom (prev : Option Char) (s : List Char) : Nat → Bool
  | 0 => boundaryOk prev
  | i + 1 => prevOk s (i + 1)

theorem countWordAux_eq_filter (w : List Char) :
    ∀ (s : List Char) (prev : Option Char),
      countWordAux w prev s =
        ((List.range s.length).filter (fun i => prevOkFrom prev s i && wordHere w (s.drop i))).length := by
  intro s
  induction s with
  | nil => intro prev; rfl
  | cons c cs ih =>
    intro prev
    rw [countWordAux]
    rw [show (c :: cs : List Char).length = cs.length + 1 from rfl]
    rw [List.range_succ_eq_map]
    rw [List.filter_cons]
    have hzero : (prevOkFrom prev (c :: cs) 0 && wordHere w ((c :: cs).drop 0))
        = (boundaryOk prev && wordHere w (c :: cs)) := by rfl
    have hmap : List.filter (fun i => prevOkFrom prev (c :: cs) i && wordHere w ((c :: cs).drop i))
          ((List.range cs.length).map Nat.succ)
        = ((List.range cs.length).filter
            (fun i => prevOkFrom (some c) cs i && wordHere w (cs.drop i))).map Nat.succ := by
      rw [List.filter_map]
      congr 1
      apply List.filter_congr
      intro i _
      have hdrop : (c :: cs).drop (Nat.succ i) = cs.drop i := by simp
      have hprev : prevOkFrom prev (c :: cs) (Nat.succ i) = prevOkFrom (some c) cs i := by
        cases i with
        | zero => rfl
        | succ j => rfl
      show (prevOkFrom prev (c :: cs) (Nat.succ i) && wordHere w ((c :: cs).drop (Nat.succ i)))
          = (prevOkFrom (some c) cs i && wordHere w (cs.drop i))
      rw [hdrop, hprev]
    rw [hmap, hzero]
    by_cases hb : (boundaryOk prev && wordHere w (c :: cs)) = true
    · rw [if_pos hb, if_pos hb]
      rw [List.length_cons, List.length_map, ih (some c)]
      omega
    · rw [if_neg hb, if_neg hb]
      rw [List.length_map, ih (some c)]
      omega

/-- The scanner's whole-word count agrees with the index-based
specification count. -/
theorem countWord_eq_numWholeWord (w s : List Char) : countWord w s = numWholeWord w s := by
  rw [countWord, numWholeWord, countWordAux_eq_filter]
  have hfn : (fun i => prevOkFrom none s i && wordHere w (s.drop i))
      = (fun i => prevOk s i && wordHere w (s.drop i)) := by
    funext i
    cases i with
    | zero => rfl
    | succ j => rfl
  rw [hfn]

/-- The complexity score of an implementation file: occurrences of the
three keywords, as counted by the checker
(`if_count + for_count + guard_count`). -/
def complexityScore (content : List Char) : Nat :=
  countWord (("if").data) content + countWord (("for").data) content
    + countWord (("guard").data) content

/-- Decimal rendering of a number, as used by the f-strings. -/
def natChars (n : Nat) : List Char := (Nat.repr n).data

/-- Apostrophe character (U+0027), used in one report message. -/
def apos : Char := Char.ofNat 39

/-- The operation-count verdict line printed for one interface. -/
def opCountLine (n : Nat) : List Char :=
  if 5 < n then ("  ❌ 方法过多! 超过5个限制 (").data ++ natChars n ++ (" > 5)").data
  else ("  ✅ 方法数量符合要求 (").data ++ natChars n ++ (" ≤ 5)").data

/-- The parameter-count verdict line printed for one operation (the
`end=""` print merged with its follow-up marker print). -/
def paramLine (m : List Char) (p : Nat) : List Char :=
  ("    ").data ++ m ++ ("(): ").data ++ natChars p ++ (" 参数").data
    ++ (if 3 < p then (" ❌ 参数过多!").data else (" ✅").data)

/-- The lines printed for one protocol: name, method count, the
operation-count verdict, one parameter verdict per method found by the
re-search, and a closing blank line. -/
def renderProtocol (pr : List Char × List Char) : List (List Char) :=
  (("协议: ").data ++ pr.1)
    :: (("  方法数量: ").data ++ natChars (methodNamesOf pr.2).length)
    :: opCountLine (methodNamesOf pr.2).length
    :: ((methodNamesOf pr.2).filterMap (fun m =>
          (searchNamedFunc m pr.2).map (fun ps => paramLine m (paramCount ps)))
        ++ [[]])

/-- The closing remark printed on full success. -/
def goodRemark : List Char :=
  ("\n\"Good. At least you didn").data ++ apos :: ("t make it worse.\"").data

/-- The aggregate section: the success message set when every verdict
passed, the failure message set otherwise. -/
def aggregateLines (allp : Bool) : List (List Char) :=
  ("=== 接口简化验证结果 ===").data ::
    (if allp then
      [("✅ 所有协议都符合Linus标准!").data, ("✅ 每个协议 ≤ 5个方法").data,
       ("✅ 每个方法 ≤ 3个参数").data, goodRemark]
     else
      [("❌ 部分协议不符合要求，需要进一步简化").data,
       ("\n\"This still looks like enterprise Java bullshit.\"").data])

/-- The lines printed by `check_protocol_complexity`: a distinct
"file does not exist" line when the protocols file is missing (the
function then returns at once), otherwise the per-protocol sections
followed by the aggregate section. -/
def checkProtocolComplexity (file : Option (List Char)) : List (List Char) :=
  match file with
  | none => [("❌ 协议文件不存在").data]
  | some content =>
    ("=== Linus协议复杂度检查 ===\n").data ::
      (concatAll ((findProtocols content).map renderProtocol)
        ++ aggregateLines (runAllPassed content))

/-- Name-simplicity classification: at most 6 characters and no
underscore (`len(method) <= 6 and not '_' in method`). -/
def isSimpleName (m : List Char) : Bool := decide (m.length ≤ 6) && !(m.contains '_')

/-- The lines printed by `check_method_naming`.  The Python list
rendering inside the f-strings and the one-decimal percentage are
abstracted to the counts they display; what matters is the control
flow: the ratio line divides by `len(methods)`, so with zero extracted
method names the function raises `ZeroDivisionError` after printing the
earlier lines — modelled by `Except.error` carrying those lines. -/
def checkMethodNaming (file : Option (List Char)) :
    Except (List (List Char)) (List (List Char)) :=
  match file with
  | none => Except.ok []
  | some content =>
    let methods := funcNamesOf content
    let simpleM := methods.filter isSimpleName
    let complexM := methods.filter (fun m => !(isSimpleName m))
    let pre := ("\n=== 方法命名简化检查 ===").data
      :: (("简单方法名 (").data ++ natChars simpleM.length ++ (")").data)
      :: (if complexM.isEmpty then [("✅ 所有方法名都够简单!").data]
          else [("复杂方法名 (").data ++ natChars complexM.length ++ (")").data])
    if methods.length = 0 then Except.error pre
    else Except.ok (pre ++
      [("\n简化率: ").data ++ natChars simpleM.length ++ ("/").data ++ natChars methods.length])

/-- The lines printed by `check_implementation_complexity` for one
existing implementation file. -/
def implFileLines (name : List Char) (content : List Char) : List (List Char) :=
  [("\n文件: ").data ++ name,
   ("  实现方法: ").data ++ natChars (funcNamesOf content).length,
   ("  代码行数: ").data ++ natChars (splitOnChar '\n' content).length,
   ("  复杂度分数: ").data ++ natChars (complexityScore content)
     ++ (" (if:").data ++ natChars (countWord (("if").data) content)
     ++ (" for:").data ++ natChars (countWord (("for").data) content)
     ++ (" guard:").data ++ natChars (countWord (("guard").data) content) ++ (")").data,
   if complexityScore content < 20 then ("  ✅ 复杂度合理").data
   else ("  ⚠️ 复杂度偏高，考虑进一步简化").data]

/-- The lines printed by `check_implementation_complexity`: the section
header, then the lines of each file that exists; a missing file is
skipped with `continue` and contributes no line at all. -/
def implSection (files : List (List Char × Option (List Char))) : List (List Char) :=
  ("\n=== 实现复杂度检查 ===").data ::
    concatAll (files.map (fun f =>
      match f.2 with
      | none => []
      | some c => implFileLines f.1 c))

/-- The input files of one run: the content of the protocols file (none
when the file does not exist) and the implementation files as pairs of
base name and optional content. -/
structure Env where
  protocols : Option (List Char)
  impls : List (List Char × Option (List Char))

/-- Result of one run of the script: the report either completes with
all its lines or aborts (an uncaught exception) with the lines printed
up to that point, and `allPassed` is the final value of the checker's
flag (none when the protocols file was missing, in which case the
protocol check returned before evaluating any rule). -/
structure RunResult where
  report : Except (List (List Char)) (List (List Char))
  allPassed : Option Bool

/-- The whole `__main__` run: protocol check, then naming check, then
implementation check, concatenating the printed lines. -/
def fullRun (env : Env) : RunResult :=
  match checkMethodNaming env.protocols with
  | Except.error pre =>
    { report := Except.error (checkProtocolComplexity env.protocols ++ pre)
      allPassed := env.protocols.map runAllPassed }
  | Except.ok part2 =>
    { report := Except.ok (checkProtocolComplexity env.protocols ++ part2 ++ implSection env.impls)
      allPassed := env.protocols.map runAllPassed }

/-- Did the run print its whole report (no uncaught exception)? -/
def reportCompletes (r : RunResult) : Bool :=
  match r.report with
  | Except.ok _ => true
  | Except.error _ => false

/-- Nested `fileSystemInfo` object of a source record; each field may be
absent. -/
structure FsInfo where
  modificationTime : Option Int
  size : Option Int

/-- Nested `gitInfo` object of a source record. -/
structure GitInfo where
  commitCount : Option Int
  lastCommitDate : Option Int

/-- One input record of the data converter.  `none` models an absent
key (or, for the nested objects, an absent object); an absent scalar of
the original JSON surfaces as `null` after `dict.get` with no default. -/
structure SourceProject where
  id : Option (List Char)
  name : Option (List Char)
  path : Option (List Char)
  tags : Option (List (List Char))
  fileSystemInfo : Option FsInfo
  lastModified : Option Int
  gitInfo : Option GitInfo
  checksum : Option (List Char)

/-- One output record: exactly the keys written by the converter, in
insertion order `id, name, path, tags, mtime, size, created,
git_commits, git_last_commit, checksum, checked`.  The first three stay
optional because `project.get(key)` yields `None` for an absent key. -/
structure LinusProject where
  id : Option (List Char)
  name : Option (List Char)
  path : Option (List Char)
  tags : List (List Char)
  mtime : Int
  size : Int
  created : Int
  git_commits : Int
  git_last_commit : Int
  checksum : List Char
  checked : Int

/-- Decimal rendering of an integer as done by the f-string. -/
def intChars (n : Int) : List Char := (Int.repr n).data

/-- The conversion of one record by `convert_to_linus_format`,
parameterised by the hex digest function (`hashlib.sha256(...)
.hexdigest()`, a 64-character lowercase hex string) and by the current
timestamp `now` (`int(datetime.now().timestamp())`). -/
def convertOne (sha256hex : List Char → List Char) (now : Int) (p : SourceProject) :
    LinusProject :=
  { id := p.id
    name := p.name
    path := p.path
    tags := p.tags.getD []
    mtime := ((p.fileSystemInfo.getD ⟨none, none⟩).modificationTime).getD 0
    size := ((p.fileSystemInfo.getD ⟨none, none⟩).size).getD 0
    created := p.lastModified.getD 0
    git_commits := ((p.gitInfo.getD ⟨none, none⟩).commitCount).getD 0
    git_last_commit := ((p.gitInfo.getD ⟨none, none⟩).lastCommitDate).getD 0
    checksum :=
      if (p.checksum.getD []).isEmpty then []
      else ("sha256:").data
        ++ (sha256hex (p.path.getD [] ++ intChars (p.lastModified.getD 0))).take 16
    checked := now }

/-- Hexadecimal digit (lowercase, as produced by `hexdigest`). -/
def isHexChar (c : Char) : Bool := ('0' ≤ c && c ≤ '9') || ('a' ≤ c && c ≤ 'f')

/-- A record with every source key absent. -/
def emptySourceProject : SourceProject :=
  { id := none, name := none, path := none, tags := none, fileSystemInfo := none
    lastModified := none, gitInfo := none, checksum := none }

theorem dropWhile_append_all {p : Char → Bool} :
    ∀ {a b : List Char}, (∀ c ∈ a, p c = true) →
      List.dropWhile p (a ++ b) = List.dropWhile p b := by
  intro a
  induction a with
  | nil => intro b _; rfl
  | cons x a' ih =>
    intro b h
    rw [List.cons_append, List.dropWhile_cons, if_pos (h x (List.mem_cons_self x a'))]
    exact ih (fun c hc => h c (List.mem_cons_of_mem x hc))

theorem takeWhile_append_all {p : Char → Bool} :
    ∀ {a b : List Char}, (∀ c ∈ a, p c = true) →
      List.takeWhile p (a ++ b) = a ++ List.takeWhile p b := by
  intro a
  induction a with
  | nil => intro b _; rfl
  | cons x a' ih =>
    intro b h
    rw [List.cons_append, List.takeWhile_cons, if_pos (h x (List.mem_cons_self x a'))]
    rw [ih (fun c hc => h c (List.mem_cons_of_mem x hc))]
    rfl

theorem takeWhile_head_fails {p : Char → Bool} {b : List Char}
    (hb : ∀ c ∈ b.take 1, p c = false) : List.takeWhile p b = [] := by
  cases b with
  | nil => rfl
  | cons x b' =>
    rw [List.takeWhile_cons, if_neg]
    rw [hb x (by simp)]
    simp

theorem dropWhile_head_fails {p : Char → Bool} {b : List Char}
    (hb : ∀ c ∈ b.take 1, p c = false) : List.dropWhile p b = b := by
  cases b with
  | nil => rfl
  | cons x b' =>
    rw [List.dropWhile_cons, if_neg]
    rw [hb x (by simp)]
    simp

theorem mem_protocolVerdicts_opCount {content name body : List Char}
    (h : (name, body) ∈ findProtocols content) :
    Verdict.opCount name (methodNamesOf body).length ∈ protocolVerdicts content := by
  rw [protocolVerdicts, mem_concatAll]
  exact ⟨verdictsOfProtocol (name, body), List.mem_map_of_mem _ h, by simp [verdictsOfProtocol]⟩

theorem mem_protocolVerdicts_param {content name body m ps : List Char}
    (h : (name, body) ∈ findProtocols content)
    (hm : m ∈ methodNamesOf body) (hs : searchNamedFunc m body = some ps) :
    Verdict.paramCountV m (paramCount ps) ∈ protocolVerdicts content := by
  rw [protocolVerdicts, mem_concatAll]
  refine ⟨verdictsOfProtocol (name, body), List.mem_map_of_mem _ h, ?_⟩
  rw [verdictsOfProtocol]
  apply List.mem_cons_of_mem
  show Verdict.paramCountV m (paramCount ps) ∈ methodVerdicts body
  rw [methodVerdicts]
  exact List.mem_filterMap.mpr ⟨m, hm, by rw [hs]; rfl⟩

theorem runAllPassed_false_of_failed {content : List Char} {v : Verdict}
    (hv : v ∈ protocolVerdicts content) (hf : v.passed = false) :
    runAllPassed content = false := by
  rw [runAllPassed_eq_all]
  cases hall : (protocolVerdicts content).all Verdict.passed
  · rfl
  · have := List.all_eq_true.mp hall v hv
    rw [hf] at this
    exact absurd this (by simp)

/-- Evaluation of one protocol match attempt on a well-formed block: the
declaration keyword, mandatory whitespace, a word-character name, a
brace-free separator not starting with a word character, the opening
brace, a body free of closing braces, the first closing brace, and the
remaining text. -/
theorem tryMatchProtocol_construct (ws name sep body rest : List Char)
    (hws1 : ws ≠ []) (hws : ∀ c ∈ ws, isSpace c = true)
    (hn1 : name ≠ []) (hn : ∀ c ∈ name, isWordChar c = true)
    (hsep : ∀ c ∈ sep, c ≠ '{') (hsep1 : ∀ c ∈ sep.take 1, isWordChar c = false)
    (hb : ∀ c ∈ body, c ≠ '}') :
    tryMatchProtocol
        (("protocol").data ++ (ws ++ (name ++ (sep ++ ('{' :: (body ++ ('}' :: rest)))))))
      = some ((name, body), rest) := by
  rcases List.exists_cons_of_ne_nil hws1 with ⟨w, ws', rfl⟩
  rcases List.exists_cons_of_ne_nil hn1 with ⟨n, name', rfl⟩
  have hw : isSpace w = true := hws w (List.mem_cons_self _ _)
  have hnw : isWordChar n = true := hn n (List.mem_cons_self _ _)
  have e1 : ((w :: ws') ++ ((n :: name') ++ (sep ++ ('{' :: (body ++ ('}' :: rest)))))).takeWhile isSpace
      ≠ [] := by
    rw [List.cons_append, List.takeWhile_cons, if_pos hw]
    simp
  have e2 : ((w :: ws') ++ ((n :: name') ++ (sep ++ ('{' :: (body ++ ('}' :: rest)))))).dropWhile isSpace
      = (n :: name') ++ (sep ++ ('{' :: (body ++ ('}' :: rest)))) := by
    rw [dropWhile_append_all hws]
    rw [List.cons_append, List.dropWhile_cons, if_neg]
    rw [word_not_space hnw]
    simp
  have hXhead : ∀ c ∈ (sep ++ ('{' :: (body ++ ('}' :: rest)))).take 1, isWordChar c = false := by
    cases sep with
    | nil =>
      intro c hc
      simp at hc
      subst hc
      decide
    | cons s0 sep' =>
      intro c hc
      rw [List.cons_append] at hc
      simp at hc
      subst hc
      exact hsep1 c (by simp)
  have e3 : ((n :: name') ++ (sep ++ ('{' :: (body ++ ('}' :: rest))))).takeWhile isWordChar
      = n :: name' := by
    rw [takeWhile_append_all hn, takeWhile_head_fails hXhead, List.append_nil]
  have e4 : ((n :: name') ++ (sep ++ ('{' :: (body ++ ('}' :: rest))))).dropWhile isWordChar
      = sep ++ ('{' :: (body ++ ('}' :: rest))) := by
    rw [dropWhile_append_all hn, dropWhile_head_fails hXhead]
  have e5 : (sep ++ ('{' :: (body ++ ('}' :: rest)))).dropWhile (notChar '{')
      = '{' :: (body ++ ('}' :: rest)) := by
    rw [dropWhile_append_all (fun c hc => by simp [notChar, hsep c hc])]
    rw [List.dropWhile_cons, if_neg]
    simp [notChar]
  have e6 : (body ++ ('}' :: rest)).dropWhile (notChar '}') = '}' :: rest := by
    rw [dropWhile_append_all (fun c hc => by simp [notChar, hb c hc])]
    rw [List.dropWhile_cons, if_neg]
    simp [notChar]
  have e7 : (body ++ ('}' :: rest)).takeWhile (notChar '}') = body := by
    rw [takeWhile_append_all (fun c hc => by simp [notChar, hb c hc])]
    rw [List.takeWhile_cons, if_neg, List.append_nil]
    simp [notChar]
  simp only [tryMatchProtocol, dropLiteral_append, e2, e3, e4, e5, e6, e7]
  rw [if_neg (by simp [List.isEmpty_iff, hw]), if_neg (by simp)]

/-- Evaluation of one named-method match attempt on a body that starts
with a declaration of that very name. -/
theorem tryMatchNamedFunc_construct (ws name ps1 rest : List Char)
    (hws1 : ws ≠ []) (hws : ∀ c ∈ ws, isSpace c = true)
    (hn1 : name ≠ []) (hn : ∀ c ∈ name, isWordChar c = true)
    (hp : ∀ c ∈ ps1, c ≠ ')') :
    tryMatchNamedFunc name
        (("func").data ++ (ws ++ (name ++ ('(' :: (ps1 ++ (')' :: rest))))))
      = some ps1 := by
  rcases List.exists_cons_of_ne_nil hws1 with ⟨w, ws', rfl⟩
  rcases List.exists_cons_of_ne_nil hn1 with ⟨n, name', rfl⟩
  have hw : isSpace w = true := hws w (List.mem_cons_self _ _)
  have hnw : isWordChar n = true := hn n (List.mem_cons_self _ _)
  have e1 : ((w :: ws') ++ ((n :: name') ++ ('(' :: (ps1 ++ (')' :: rest))))).takeWhile isSpace
      ≠ [] := by
    rw [List.cons_append, List.takeWhile_cons, if_pos hw]
    simp
  have e2 : ((w :: ws') ++ ((n :: name') ++ ('(' :: (ps1 ++ (')' :: rest))))).dropWhile isSpace
      = (n :: name') ++ ('(' :: (ps1 ++ (')' :: rest))) := by
    rw [dropWhile_append_all hws]
    rw [List.cons_append, List.dropWhile_cons, if_neg]
    rw [word_not_space hnw]
    simp
  have e3 : dropLiteral (n :: name') ((n :: name') ++ ('(' :: (ps1 ++ (')' :: rest))))
      = some ('(' :: (ps1 ++ (')' :: rest))) := dropLiteral_append _ _
  have e4 : ('(' :: (ps1 ++ (')' :: rest))).dropWhile isSpace = '(' :: (ps1 ++ (')' :: rest)) := by
    rw [List.dropWhile_cons, if_neg]
    decide
  have e5 : (ps1 ++ (')' :: rest)).dropWhile (notChar ')') = ')' :: rest := by
    rw [dropWhile_append_all (fun c hc => by simp [notChar, hp c hc])]
    rw [List.dropWhile_cons, if_neg]
    simp [notChar]
  have e6 : (ps1 ++ (')' :: rest)).takeWhile (notChar ')') = ps1 := by
    rw [takeWhile_append_all (fun c hc => by simp [notChar, hp c hc])]
    rw [List.takeWhile_cons, if_neg, List.append_nil]
    simp [notChar]
  simp only [tryMatchNamedFunc, dropLiteral_append, e2, e3, e4, e5, e6]
  rw [if_neg (by simp [List.isEmpty_iff, hw])]
  simp [List.isEmpty_iff]

/-- A successful match attempt at the start of the text is what the
leftmost search returns. -/
theorem searchNamedFunc_of_head {name s ps : List Char}
    (h : tryMatchNamedFunc name s = some ps) : searchNamedFunc name s = some ps := by
  cases s with
  | nil =>
    rw [show tryMatchNamedFunc name [] = none from rfl] at h
    exact absurd h (by simp)
  | cons c cs =>
    rw [searchNamedFunc, h]

theorem opCount_passed_iff (nm : List Char) (n : Nat) :
    (Verdict.opCount nm n).passed = true ↔ n ≤ 5 := by
  by_cases h5 : 5 < n
  · simp [Verdict.passed, if_pos h5]
    omega
  · simp [Verdict.passed, if_neg h5]
    omega

theorem paramV_passed_iff (nm : List Char) (p : Nat) :
    (Verdict.paramCountV nm p).passed = true ↔ p ≤ 3 := by
  by_cases h3 : 3 < p
  · simp [Verdict.passed, if_pos h3]
    omega
  · simp [Verdict.passed, if_neg h3]
    omega

theorem opCountLine_pass_iff (n : Nat) :
    opCountLine n
      = ("  ✅ 方法数量符合要求 (").data ++ natChars n ++ (" ≤ 5)").data ↔ n ≤ 5 := by
  constructor
  · intro h
    by_contra hn
    push_neg at hn
    rw [opCountLine, if_pos hn] at h
    have h2 : (("  ❌ 方法过多! 超过5个限制 (").data ++ natChars n ++ (" > 5)").data)[2]?
        = (("  ✅ 方法数量符合要求 (").data ++ natChars n ++ (" ≤ 5)").data)[2]? :=
      congrArg (fun l : List Char => l[2]?) h
    rw [List.append_assoc, List.append_assoc] at h2
    rw [List.getElem?_append_left (by decide), List.getElem?_append_left (by decide)] at h2
    exact absurd h2 (by decide)
  · intro h
    rw [opCountLine, if_neg (by omega)]

/-- C1.  For every run, the aggregate verdict `allPassed` is true iff
every individual rule verdict produced in the run (the operation-count
verdict of every interface and the parameter-count verdict of every
operation) passes; the right-hand side quantifies over membership in the
verdict list, so it is independent of the order in which the verdicts
are produced, and a single failed verdict makes the flag false. -/
theorem claim1_allPassed_iff_all_verdicts (content : List Char) :
    runAllPassed content = true ↔ ∀ v ∈ protocolVerdicts content, v.passed = true := by
  rw [runAllPassed_eq_all]
  exact List.all_eq_true

/-- Witness for C1 at a passing one-protocol file. -/
theorem claim1_witness :
    runAllPassed (("protocol A { func a() }").data) = true :=
  (claim1_allPassed_iff_all_verdicts (("protocol A { func a() }").data)).mpr (by decide)

/-- C2.  For every operation, the computed parameter count equals the
number of comma-separated segments of the captured parameter-list text
that are non-empty after trimming whitespace, and an empty or
all-whitespace parameter list yields count 0. -/
theorem claim2_parameter_count (ps : List Char) :
    paramCount ps = nonBlankSegmentCount ps
    ∧ ((∀ c ∈ ps, isSpace c = true) → paramCount ps = 0) := by
  refine ⟨paramCount_eq_nonBlank ps, fun hall => ?_⟩
  rw [paramCount]
  have h : stripChars ps = [] := stripChars_eq_nil_iff.mpr hall
  simp [h]

/-- Witness for C2 at Scenario C's parameter text and at an
all-whitespace list. -/
theorem claim2_parameter_count_witness :
    paramCount (("a: Int, b: String, c: Bool, d: Float").data) = 4
    ∧ paramCount (("   ").data) = 0 := by
  constructor
  · have h := (claim2_parameter_count (("a: Int, b: String, c: Bool, d: Float").data)).1
    rw [h]
    decide
  · exact (claim2_parameter_count (("   ").data)).2 (by decide)

/-- C3.  For every interface extracted from the run's definitions file,
the operation-count verdict passes iff the number of extracted
operations is at most 5 (the pass-marker line is printed exactly in that
case and a passing count leaves the `all_passed` accumulator unchanged);
an interface with zero operations passes trivially, and a count above 5
forces the aggregate `allPassed` of the whole run to false. -/
theorem claim3_operation_count_rule {content name body : List Char}
    (h : (name, body) ∈ findProtocols content) :
    ((Verdict.opCount name (methodNamesOf body).length).passed = true
        ↔ (methodNamesOf body).length ≤ 5)
    ∧ ((methodNamesOf body).length = 0 →
        (Verdict.opCount name (methodNamesOf body).length).passed = true)
    ∧ (opCountLine (methodNamesOf body).length
        = ("  ✅ 方法数量符合要求 (").data ++ natChars (methodNamesOf body).length ++ (" ≤ 5)").data
        ↔ (methodNamesOf body).length ≤ 5)
    ∧ ((methodNamesOf body).length ≤ 5 →
        ∀ a : Bool, (if 5 < (methodNamesOf body).length then false else a) = a)
    ∧ (5 < (methodNamesOf body).length → runAllPassed content = false) := by
  refine ⟨opCount_passed_iff name _, ?_, opCountLine_pass_iff _, ?_, ?_⟩
  · intro h0
    rw [h0]
    simp [Verdict.passed]
  · intro h5 a
    rw [if_neg (by omega)]
  · intro h5
    apply runAllPassed_false_of_failed (mem_protocolVerdicts_opCount h)
    simp [Verdict.passed, if_pos h5]

/-- Witness for C3 at a one-method interface. -/
theorem claim3_witness :
    (Verdict.opCount (("A").data) (methodNamesOf ((" func a() ").data)).length).passed = true := by
  have h := @claim3_operation_count_rule (("protocol A { func a() }").data)
    (("A").data) ((" func a() ").data) (by decide)
  exact h.1.mpr (by decide)

/-- C4.  For every operation whose parameter verdict is produced in the
run, the parameter-count rule passes iff the count is at most 3; a count
of 4 or more fails the verdict and forces the aggregate `allPassed` of
the run to false, while the verdict of any other operation of the same
interface is still determined by that operation's own count alone. -/
theorem claim4_parameter_rule {content name body m ps : List Char}
    (h : (name, body) ∈ findProtocols content)
    (hm : m ∈ methodNamesOf body)
    (hs : searchNamedFunc m body = some ps) :
    ((Verdict.paramCountV m (paramCount ps)).passed = true ↔ paramCount ps ≤ 3)
    ∧ (4 ≤ paramCount ps →
        (Verdict.paramCountV m (paramCount ps)).passed = false ∧ runAllPassed content = false)
    ∧ (∀ m' ps', m' ∈ methodNamesOf body → searchNamedFunc m' body = some ps' →
        ((Verdict.paramCountV m' (paramCount ps')).passed = true ↔ paramCount ps' ≤ 3)) := by
  refine ⟨paramV_passed_iff m _, ?_, ?_⟩
  · intro h4
    have hf : (Verdict.paramCountV m (paramCount ps)).passed = false := by
      simp [Verdict.passed, if_pos (by omega : 3 < paramCount ps)]
    exact ⟨hf, runAllPassed_false_of_failed (mem_protocolVerdicts_param h hm hs) hf⟩
  · intro m' ps' _ _
    exact paramV_passed_iff m' _

/-- Witness for C4 at Scenario C: a four-parameter operation fails and
drags the aggregate down while its sibling passes. -/
theorem claim4_witness :
    ((Verdict.paramCountV (("a").data) (paramCount (("q,w,e,r").data))).passed = false
      ∧ runAllPassed (("protocol A { func a(q,w,e,r) func b() }").data) = false)
    ∧ (Verdict.paramCountV (("b").data) (paramCount (("").data))).passed = true := by
  have h := @claim4_parameter_rule (("protocol A { func a(q,w,e,r) func b() }").data)
    (("A").data) ((" func a(q,w,e,r) func b() ").data)
    (("a").data) (("q,w,e,r").data)
    (by decide) (by decide) (by decide)
  refine ⟨h.2.1 (by decide), ?_⟩
  exact (h.2.2 (("b").data) (("").data) (by decide) (by decide)).mpr (by decide)

theorem fullRun_allPassed_eq (p : Option (List Char))
    (fs : List (List Char × Option (List Char))) :
    (fullRun ⟨p, fs⟩).allPassed = p.map runAllPassed := by
  cases h : checkMethodNaming p <;> simp [fullRun, h]

theorem reportCompletes_indep (p : Option (List Char))
    (fs fs' : List (List Char × Option (List Char))) :
    reportCompletes (fullRun ⟨p, fs⟩) = reportCompletes (fullRun ⟨p, fs'⟩) := by
  cases h : checkMethodNaming p <;> simp [fullRun, h, reportCompletes]

/-- C5.  For every implementation file, the complexity score equals the
sum of the whole-word occurrence counts of the three keywords (counted
at word boundaries, so occurrences inside longer identifiers do not
count); the verdict line of the file's report section is the pass line
iff the score is strictly below 20, a score of 20 or more prints the
warning line instead, and neither the score nor the implementation
files at all influence the aggregate `allPassed` or whether the run
completes. -/
theorem claim5_complexity_score (content nm : List Char) :
    complexityScore content =
      numWholeWord (("if").data) content + numWholeWord (("for").data) content
        + numWholeWord (("guard").data) content
    ∧ ((implFileLines nm content)[4]? = some (("  ✅ 复杂度合理").data)
        ↔ complexityScore content < 20)
    ∧ (20 ≤ complexityScore content →
        (implFileLines nm content)[4]? = some (("  ⚠️ 复杂度偏高，考虑进一步简化").data))
    ∧ (∀ (p : Option (List Char)) (fs fs' : List (List Char × Option (List Char))),
        (fullRun ⟨p, fs⟩).allPassed = (fullRun ⟨p, fs'⟩).allPassed
        ∧ reportCompletes (fullRun ⟨p, fs⟩) = reportCompletes (fullRun ⟨p, fs'⟩)) := by
  have h4 : (implFileLines nm content)[4]?
      = some (if complexityScore content < 20 then ("  ✅ 复杂度合理").data
              else ("  ⚠️ 复杂度偏高，考虑进一步简化").data) := rfl
  refine ⟨?_, ?_, ?_, ?_⟩
  · rw [complexityScore, countWord_eq_numWholeWord, countWord_eq_numWholeWord,
      countWord_eq_numWholeWord]
  · rw [h4]
    constructor
    · intro h
      by_contra hge
      rw [if_neg hge] at h
      simp only [Option.some.injEq] at h
      exact absurd h (by decide)
    · intro h
      rw [if_pos h]
  · intro hge
    rw [h4, if_neg (by omega)]
  · intro p fs fs'
    exact ⟨by rw [fullRun_allPassed_eq, fullRun_allPassed_eq], reportCompletes_indep p fs fs'⟩

/-- Witness for C5 at Scenario D's shape: a file with 20 combined
keyword occurrences gets the warning line, and the keyword occurrence
inside a longer identifier is not counted. -/
theorem claim5_witness :
    (implFileLines (("X.swift").data)
        (("if for guard if for guard if for guard if for guard if for guard if for guard if for guard iffy").data))[4]?
      = some (("  ⚠️ 复杂度偏高，考虑进一步简化").data)
    ∧ complexityScore (("if for guard if for guard if for guard if for guard if for guard if for guard if for guard iffy").data)
      = numWholeWord (("if").data) (("if for guard if for guard if for guard if for guard if for guard if for guard if for guard iffy").data)
        + numWholeWord (("for").data) (("if for guard if for guard if for guard if for guard if for guard if for guard if for guard iffy").data)
        + numWholeWord (("guard").data) (("if for guard if for guard if for guard if for guard if for guard if for guard if for guard iffy").data) := by
  have h := claim5_complexity_score
    (("if for guard if for guard if for guard if for guard if for guard if for guard if for guard iffy").data)
    (("X.swift").data)
  exact ⟨h.2.2.1 (by decide), h.1⟩

/-- C6 counterexample: for a missing implementation file the run prints
no line at all — the implementation section consists of its header only,
with no "file not found" line for the missing file. -/
theorem claim6_counterexample :
    implSection [((("SimpleTagManager.swift").data), none)]
      = [("\n=== 实现复杂度检查 ===").data] := by
  decide

/-- C6 amended.  When the protocols definitions file is missing, the run
prints the distinct "file not found" line, skips protocol analysis
(emitting no verdicts and no aggregate section, so `allPassed` is never
produced), and still continues with the remaining checks; a missing
implementation file, by contrast, is skipped silently and contributes no
report line, and implementation files never affect `allPassed`. -/
theorem claim6_amended :
    (∀ impls : List (List Char × Option (List Char)),
      (fullRun ⟨none, impls⟩).report
        = Except.ok (("❌ 协议文件不存在").data :: implSection impls)
      ∧ (fullRun ⟨none, impls⟩).allPassed = none)
    ∧ (∀ (nm : List Char) (fs : List (List Char × Option (List Char))),
        implSection ((nm, none) :: fs) = implSection fs) := by
  constructor
  · intro impls
    constructor
    · rfl
    · rw [fullRun_allPassed_eq]
      rfl
  · intro nm fs
    simp [implSection, concatAll]

/-- C7 counterexample: a record with every source key absent is
converted with `id` equal to null — not the empty string the claim's
per-type defaulting requires — and with an empty `checksum` carrying
neither a digest nor an algorithm tag. -/
theorem claim7_counterexample :
    (convertOne (fun _ => []) 0 emptySourceProject).id = none
    ∧ (convertOne (fun _ => []) 0 emptySourceProject).checksum = [] :=
  ⟨rfl, rfl⟩

/-- C7 amended.  Every output record carries exactly the fields
`id, name, path, tags, mtime, size, created, git_commits,
git_last_commit, checksum, checked`; `tags` defaults to the empty
sequence and the numeric fields to 0 when missing, but `id`, `name` and
`path` are passed through unchanged (so a missing one stays null rather
than defaulting to an empty string); when the input checksum is present
and non-empty the output checksum is the algorithm tag `sha256:`
followed by the first 16 characters of the hex digest of path plus
last-modified (23 characters, hex after the tag), while a missing or
empty input checksum yields the empty string instead of a digest. -/
theorem claim7_amended (f : List Char → List Char) (now : Int) (p : SourceProject)
    (hf : ∀ s, (f s).length = 64 ∧ ∀ c ∈ f s, isHexChar c = true) :
    (convertOne f now p).id = p.id
    ∧ (convertOne f now p).name = p.name
    ∧ (convertOne f now p).path = p.path
    ∧ (convertOne f now p).tags = p.tags.getD []
    ∧ (convertOne f now p).mtime = ((p.fileSystemInfo.getD ⟨none, none⟩).modificationTime).getD 0
    ∧ (convertOne f now p).size = ((p.fileSystemInfo.getD ⟨none, none⟩).size).getD 0
    ∧ (convertOne f now p).created = p.lastModified.getD 0
    ∧ (convertOne f now p).git_commits = ((p.gitInfo.getD ⟨none, none⟩).commitCount).getD 0
    ∧ (convertOne f now p).git_last_commit = ((p.gitInfo.getD ⟨none, none⟩).lastCommitDate).getD 0
    ∧ (convertOne f now p).checked = now
    ∧ ((p.checksum.getD []).isEmpty = true → (convertOne f now p).checksum = [])
    ∧ ((p.checksum.getD []).isEmpty = false →
        (convertOne f now p).checksum
          = ("sha256:").data ++ (f (p.path.getD [] ++ intChars (p.lastModified.getD 0))).take 16
        ∧ (convertOne f now p).checksum.length = 23
        ∧ (convertOne f now p).checksum.take 7 = ("sha256:").data
        ∧ ∀ c ∈ (convertOne f now p).checksum.drop 7, isHexChar c = true) := by
  refine ⟨rfl, rfl, rfl, rfl, rfl, rfl, rfl, rfl, rfl, rfl, ?_, ?_⟩
  · intro h
    show (if (p.checksum.getD []).isEmpty then ([] : List Char) else _) = []
    rw [if_pos h]
  · intro h
    have hc : (convertOne f now p).checksum
        = ("sha256:").data ++ (f (p.path.getD [] ++ intChars (p.lastModified.getD 0))).take 16 := by
      show (if (p.checksum.getD []).isEmpty then ([] : List Char) else _) = _
      rw [if_neg (by rw [h]; exact Bool.false_ne_true)]
    have hlen : ((f (p.path.getD [] ++ intChars (p.lastModified.getD 0))).take 16).length = 16 := by
      rw [List.length_take, (hf _).1]
      decide
    refine ⟨hc, ?_, ?_, ?_⟩
    · rw [hc, List.length_append, hlen]
      rfl
    · rw [hc]
      rw [show (7 : Nat) = (("sha256:").data).length from rfl]
      exact List.take_left _ _
    · intro c hcmem
      rw [hc] at hcmem
      rw [show (7 : Nat) = (("sha256:").data).length from rfl] at hcmem
      rw [List.drop_left] at hcmem
      exact (hf _).2 c (List.mem_of_mem_take hcmem)

/-- Witness for C7 at a record whose checksum is present. -/
theorem claim7_amended_witness :
    (convertOne (fun _ => List.replicate 64 ('0')) 99
        ⟨none, none, none, none, none, none, none, some (("abc").data)⟩).checksum.length = 23 := by
  have h := claim7_amended (fun _ => List.replicate 64 ('0')) 99
    ⟨none, none, none, none, none, none, none, some (("abc").data)⟩
    (by
      intro s
      refine ⟨by simp, ?_⟩
      intro c hc
      rw [List.eq_of_mem_replicate hc]
      decide)
  exact (h.2.2.2.2.2.2.2.2.2.2.2 (by decide)).2.1

/-- C8.  The block extractor returns interface definitions in source
order: a well-formed block at the current position is emitted first and
the remaining matches come from the text strictly after its closing
brace; each captured body is exactly the text between the opening brace
and the first closing brace after it (the body may contain an unmatched
opening brace — no nesting is tracked); and a file with zero extracted
interfaces is not an error: the run's protocol section is just the
header followed by the aggregate section, with `allPassed` true. -/
theorem claim8_block_extractor (ws name sep body rest : List Char)
    (hws1 : ws ≠ []) (hws : ∀ c ∈ ws, isSpace c = true)
    (hn1 : name ≠ []) (hn : ∀ c ∈ name, isWordChar c = true)
    (hsep : ∀ c ∈ sep, c ≠ '{') (hsep1 : ∀ c ∈ sep.take 1, isWordChar c = false)
    (hb : ∀ c ∈ body, c ≠ '}') :
    findProtocols (("protocol").data ++ (ws ++ (name ++ (sep ++ ('{' :: (body ++ ('}' :: rest)))))))
      = (name, body) :: findProtocols rest
    ∧ ∀ content : List Char, findProtocols content = [] →
        checkProtocolComplexity (some content)
          = ("=== Linus协议复杂度检查 ===\n").data :: aggregateLines true
        ∧ runAllPassed content = true := by
  constructor
  · have hm := tryMatchProtocol_construct ws name sep body rest hws1 hws hn1 hn hsep hsep1 hb
    have hcons : (("protocol").data ++ (ws ++ (name ++ (sep ++ ('{' :: (body ++ ('}' :: rest)))))))
        = 'p' :: (("rotocol").data ++ (ws ++ (name ++ (sep ++ ('{' :: (body ++ ('}' :: rest))))))) := rfl
    rw [hcons] at hm ⊢
    exact findProtocols_cons_some hm
  · intro content h0
    have hap : runAllPassed content = true := by
      rw [runAllPassed, h0]
      rfl
    refine ⟨?_, hap⟩
    show ("=== Linus协议复杂度检查 ===\n").data ::
        (concatAll ((findProtocols content).map renderProtocol)
          ++ aggregateLines (runAllPassed content))
      = ("=== Linus协议复杂度检查 ===\n").data :: aggregateLines true
    rw [h0, hap]
    rfl

/-- Witness for C8: a concrete block with an empty separator, and a
concrete no-interface file. -/
theorem claim8_witness :
    findProtocols (("protocol Foo{ func a() }").data)
      = [((("Foo").data), ((" func a() ").data))]
    ∧ checkProtocolComplexity (some (("no declarations here").data))
      = ("=== Linus协议复杂度检查 ===\n").data :: aggregateLines true := by
  have h := claim8_block_extractor ((" ").data) (("Foo").data) [] ((" func a() ").data) []
    (by decide) (by decide) (by decide) (by decide) (by decide) (by decide) (by decide)
  constructor
  · have heq : (("protocol").data
        ++ (((" ").data) ++ ((("Foo").data)
          ++ (([] : List Char) ++ ('{' :: (((" func a() ").data) ++ ('}' :: ([] : List Char))))))))
      = ("protocol Foo{ func a() }").data := by decide
    rw [heq] at h
    rw [h.1]
    rfl
  · exact (h.2 (("no declarations here").data) (by decide)).1

/-- C9.  If the definitions file exists but the method-name pattern
finds zero occurrences, the naming check reaches
`len(simple_methods)/len(methods)` with `len(methods) == 0`: the run
raises `ZeroDivisionError` after the earlier naming lines and never
completes the report. -/
theorem claim9_division_by_zero {content : List Char}
    (h : funcNamesOf content = []) :
    checkMethodNaming (some content)
      = Except.error
          [("\n=== 方法命名简化检查 ===").data,
           ("简单方法名 (").data ++ natChars 0 ++ (")").data,
           ("✅ 所有方法名都够简单!").data]
    ∧ ∀ impls : List (List Char × Option (List Char)),
        reportCompletes (fullRun ⟨some content, impls⟩) = false := by
  have hcm : checkMethodNaming (some content)
      = Except.error
          [("\n=== 方法命名简化检查 ===").data,
           ("简单方法名 (").data ++ natChars 0 ++ (")").data,
           ("✅ 所有方法名都够简单!").data] := by
    show (let methods := funcNamesOf content
          let simpleM := methods.filter isSimpleName
          let complexM := methods.filter (fun m => !(isSimpleName m))
          let pre := ("\n=== 方法命名简化检查 ===").data
            :: (("简单方法名 (").data ++ natChars simpleM.length ++ (")").data)
            :: (if complexM.isEmpty then [("✅ 所有方法名都够简单!").data]
                else [("复杂方法名 (").data ++ natChars complexM.length ++ (")").data])
          if methods.length = 0 then Except.error pre
          else Except.ok (pre ++
            [("\n简化率: ").data ++ natChars simpleM.length ++ ("/").data ++ natChars methods.length]))
      = _
    rw [h]
    rfl
  refine ⟨hcm, fun impls => ?_⟩
  simp [fullRun, hcm, reportCompletes]

/-- Witness for C9 at a file with no method declarations. -/
theorem claim9_witness :
    reportCompletes (fullRun ⟨some (("no methods here").data), []⟩) = false :=
  (claim9_division_by_zero (by decide)).2 []

/-- C10.  The parameter verdict of an operation is obtained by
re-searching the whole body for the operation's name, so the search
returns the parameter list of the first declaration of that name (a
declaration at the head of the body wins regardless of what follows),
and any two occurrences of the same name in the method list receive the
same parameter count — later same-named declarations are never evaluated
on their own parameter lists. -/
theorem claim10_duplicate_method_names {body : List Char} :
    (∀ (ws name ps1 rest : List Char),
      ws ≠ [] → (∀ c ∈ ws, isSpace c = true) →
      name ≠ [] → (∀ c ∈ name, isWordChar c = true) →
      (∀ c ∈ ps1, c ≠ ')') →
      searchNamedFunc name (("func").data ++ (ws ++ (name ++ ('(' :: (ps1 ++ (')' :: rest))))))
        = some ps1)
    ∧ (∀ (i j : Nat) (hi : i < (methodNamesOf body).length) (hj : j < (methodNamesOf body).length),
        (methodNamesOf body).get ⟨i, hi⟩ = (methodNamesOf body).get ⟨j, hj⟩ →
        (searchNamedFunc ((methodNamesOf body).get ⟨i, hi⟩) body).map paramCount
          = (searchNamedFunc ((methodNamesOf body).get ⟨j, hj⟩) body).map paramCount) := by
  constructor
  · intro ws name ps1 rest h1 h2 h3 h4 h5
    exact searchNamedFunc_of_head (tryMatchNamedFunc_construct ws name ps1 rest h1 h2 h3 h4 h5)
  · intro i j hi hj heq
    rw [heq]

/-- Witness for C10: a body declaring `load` twice — with four parameters
first and zero parameters second — yields the first declaration's list
for the search, and both occurrences get the verdict of the first
declaration (count 4), not the second declaration's count 0. -/
theorem claim10_witness :
    searchNamedFunc (("load").data) (("func load(a, b, c, d)\nfunc load()").data)
      = some (("a, b, c, d").data)
    ∧ methodVerdicts (("func load(a, b, c, d)\nfunc load()").data)
      = [Verdict.paramCountV (("load").data) 4, Verdict.paramCountV (("load").data) 4] := by
  constructor
  · have h := (@claim10_duplicate_method_names ([] : List Char)).1
      ((" ").data) (("load").data) (("a, b, c, d").data) (("\nfunc load()").data)
      (by decide) (by decide) (by decide) (by decide) (by decide)
    have heq : (("func").data ++ (((" ").data) ++ ((("load").data)
        ++ ('(' :: ((("a, b, c, d").data) ++ (')' :: (("\nfunc load()").data)))))))
      = ("func load(a, b, c, d)\nfunc load()").data := by decide
    rw [heq] at h
    exact h
  · decide

end LinusCheck
